import Mathlib

/-!
Verification of the password-store-rs repository against its specification.

Rust strings are modelled as `List Char`; filesystem paths as `List Char`
(whole path strings) or `List (List Char)` (segment lists) depending on the
operation being modelled.  Each definition below is a shallow embedding of a
function of the Rust source (`src/utils.rs`, `src/commands/add.rs`,
`src/commands/show.rs`, `src/commands/init.rs`, `src/integrations/gpg.rs`);
the file and line of origin are noted on each definition.
-/

namespace PassRS

/-! ### Rust string primitives -/

/-- The Unicode code points with the White_Space property, which is what
Rust's `char::is_whitespace` (used by `str::trim`) tests. -/
def rustWhitespace : List Char :=
  ['\t', '\n', '\x0b', '\x0c', '\r', ' ', '\u0085', '\u00a0', '\u1680',
   '\u2000', '\u2001', '\u2002', '\u2003', '\u2004', '\u2005', '\u2006',
   '\u2007', '\u2008', '\u2009', '\u200a', '\u2028', '\u2029', '\u202f',
   '\u205f', '\u3000']

/-- Model of Rust `char::is_whitespace`. -/
def isRustWS (c : Char) : Bool := rustWhitespace.contains c

/-- Model of Rust `str::trim`: drop whitespace from both ends. -/
def rustTrim (s : List Char) : List Char :=
  ((s.dropWhile isRustWS).reverse.dropWhile isRustWS).reverse

/-- Model of Rust `str::starts_with` for a string pattern. -/
def hasPrefixSeq : List Char → List Char → Bool
  | [], _ => true
  | _ :: _, [] => false
  | p :: ps, c :: cs => p == c && hasPrefixSeq ps cs

/-- Model of Rust `str::ends_with` for a string pattern. -/
def hasSuffixSeq (p s : List Char) : Bool := hasPrefixSeq p.reverse s.reverse

/-- Model of Rust `str::contains` for a string pattern. -/
def hasInfixSeq (p : List Char) : List Char → Bool
  | [] => hasPrefixSeq p []
  | c :: cs => hasPrefixSeq p (c :: cs) || hasInfixSeq p cs

/-! ### PathValidator — `check_sneaky_paths`, src/utils.rs lines 43-50 -/

inductive PathError where
  | Traversal
deriving DecidableEq

/-- src/utils.rs lines 44-48: the per-path sneaky test.  A path is rejected
when it ends with `/..`, starts with `../`, contains `/../`, or equals `..`. -/
def check_sneaky_path (s : List Char) : Bool :=
  hasSuffixSeq (("/..").toList) s || hasPrefixSeq (("../").toList) s ||
    hasInfixSeq (("/../").toList) s || decide (s = ("..").toList)

/-- src/utils.rs lines 43-50: `check_sneaky_paths` panics when any of the
given paths is sneaky. -/
def check_sneaky_paths (ps : List (List Char)) : Bool := ps.any check_sneaky_path

/-- The validation step as a fallible operation: on acceptance the input is
returned unchanged (the Rust function panics on rejection and otherwise
leaves the caller's string untouched). -/
def validatePath (s : List Char) : Except PathError (List Char) :=
  if check_sneaky_path s then Except.error PathError.Traversal else Except.ok s

/-! ### Filesystem-operation traces of `cmd_add` and `cmd_show`

The sequence of filesystem-affecting operations each command performs, in
source order, on its success path (branches that abort before any further
filesystem effect are elided).  `gpgEncryptTo p` models spawning
`gpg --encrypt --yes --batch --recipient r --output p`, whose child process
writes the ciphertext to `p` itself. -/

inductive FsOp where
  | existsCheck : List Char → FsOp
  | mkPath : List Char → FsOp
  | readFile : List Char → FsOp
  | listKeys : FsOp
  | createDirAll : List Char → FsOp
  | gpgEncryptTo : List Char → FsOp
  | gpgDecrypt : List Char → FsOp
  | renameFile : List Char → List Char → FsOp
  | sneakyCheck : List Char → FsOp
deriving DecidableEq

/-- src/commands/add.rs line 68: `passfile = format!("{}/{}.gpg", PREFIX, pass_name)`. -/
def passfilePath (pfx name : List Char) : List Char :=
  pfx ++ ('/' :: name) ++ (".gpg").toList

/-- src/commands/add.rs line 69: `gpg_id_file = format!("{}/.gpg-id", PREFIX)`. -/
def gpgIdFilePath (pfx : List Char) : List Char := pfx ++ ("/.gpg-id").toList

/-- Rust `Path::parent` on a path that contains a slash: everything before
the final path component. -/
def dirOf (p : List Char) : List Char :=
  ((p.reverse.dropWhile (fun c => !(c == '/'))).drop 1).reverse

/-- src/commands/add.rs lines 52-245 (`cmd_add`): filesystem-operation trace
of the success path.  Note there is no `sneakyCheck` and no `renameFile`:
the name is never validated and the ciphertext is written by gpg directly to
the target path. -/
def cmd_add_ops (pfx name : List Char) : List FsOp :=
  [FsOp.existsCheck pfx,
   FsOp.mkPath (passfilePath pfx name),
   FsOp.readFile (gpgIdFilePath pfx),
   FsOp.listKeys,
   FsOp.existsCheck (passfilePath pfx name),
   FsOp.createDirAll (dirOf (passfilePath pfx name)),
   FsOp.gpgEncryptTo (passfilePath pfx name)]

/-- src/commands/show.rs lines 39-49 (`cmd_show`): filesystem-operation trace
up to and including decryption of an existing entry.  The name is validated
by `check_sneaky_paths` before the path is constructed. -/
def cmd_show_ops (pfx name : List Char) : List FsOp :=
  [FsOp.sneakyCheck name,
   FsOp.mkPath (passfilePath pfx name),
   FsOp.existsCheck (passfilePath pfx name),
   FsOp.gpgDecrypt (passfilePath pfx name)]

/-- src/integrations/gpg.rs lines 152-240: per-file operations of the
re-encryption loop — decrypt the file, then re-encrypt with gpg writing
directly back to the same path. -/
def reencrypt_file_ops (p : List Char) : List FsOp :=
  [FsOp.gpgDecrypt p, FsOp.gpgEncryptTo p]

def isRenameOp : FsOp → Bool
  | FsOp.renameFile _ _ => true
  | _ => false

def writesTo (tgt : List Char) : FsOp → Bool
  | FsOp.gpgEncryptTo p => p == tgt
  | _ => false

def renamesOnto (tgt : List Char) : FsOp → Bool
  | FsOp.renameFile _ d => d == tgt
  | _ => false

/-- The temp-file-then-rename discipline the specification describes: some
operation in the trace renames a file onto the target. -/
def tempThenRename (ops : List FsOp) (tgt : List Char) : Bool :=
  ops.any (renamesOnto tgt)

/-- Scans a trace: `true` when a `sneakyCheck` of `name` occurs before the
first path construction, `false` when a path is constructed first. -/
def validatesBeforePath (name : List Char) : List FsOp → Bool
  | [] => true
  | FsOp.sneakyCheck s :: rest =>
      if s = name then true else validatesBeforePath name rest
  | FsOp.mkPath _ :: _ => false
  | _ :: rest => validatesBeforePath name rest

/-! ### Recipient resolution

`cmd_add` (src/commands/add.rs lines 69-81) reads `<PREFIX>/.gpg-id` — the
store root's recipient file — no matter how deep the entry's name nests.
`reencrypt_path` (src/integrations/gpg.rs lines 122-129) reads `.gpg-id`
in the target directory itself and fails when it is absent or blank.
Neither walks upward.  A store's recipient files are modelled as a finite
association from directory path (segments relative to the store root) to
the content of that directory's `.gpg-id` file. -/

def GpgIdMap : Type := List (List (List Char) × List Char)

def assocLookup (d : List (List Char)) : GpgIdMap → Option (List Char)
  | [] => none
  | (k, v) :: rest => if k = d then some v else assocLookup d rest

/-- src/commands/add.rs lines 69-81: the recipient used by `cmd_add` is the
whole trimmed content of the root `.gpg-id`; error when the file is missing. -/
def addReadRecipient (m : GpgIdMap) : Except Unit (List Char) :=
  match assocLookup [] m with
  | some content => Except.ok (rustTrim content)
  | none => Except.error ()

/-- src/integrations/gpg.rs lines 122-129: `reencrypt_path` reads `.gpg-id`
only in the directory it was given; error when missing or blank. -/
def reencReadRecipient (m : GpgIdMap) (d : List (List Char)) : Except Unit (List Char) :=
  match assocLookup d m with
  | none => Except.error ()
  | some content =>
      if (rustTrim content).isEmpty then Except.error () else Except.ok (rustTrim content)

/-- Rust `str::lines`-style split of a `.gpg-id` file body at newlines
(used only by the specification-side resolver below). -/
def splitOnNL : List Char → List (List Char)
  | [] => [[]]
  | c :: cs =>
      if c = '\n' then [] :: splitOnNL cs
      else
        match splitOnNL cs with
        | [] => [[c]]
        | l :: ls => (c :: l) :: ls

/-- The recipient list the specification ascribes to a recipient file:
non-blank trimmed lines, order preserved, duplicates allowed (spec §4.2). -/
def specRecipientLines (content : List Char) : List (List Char) :=
  ((splitOnNL content).map rustTrim).filter (fun l => !l.isEmpty)

/-- Specification-side resolver, following the words of spec §4.2 for the
refinement comparison: walk from the target directory up to the store root
inclusive, returning the first recipient file found; `NotInitialized`
(here `Except.error ()`) only when no directory on the path has one.
The walk is performed on the reversed segment list. -/
def specResolveAux (m : GpgIdMap) : List (List Char) → Except Unit (List (List Char))
  | [] =>
      match assocLookup [] m with
      | some content => Except.ok (specRecipientLines content)
      | none => Except.error ()
  | seg :: rest =>
      match assocLookup ((seg :: rest).reverse) m with
      | some content => Except.ok (specRecipientLines content)
      | none => specResolveAux m rest

/-- Spec §4.2 resolver on a directory given as a segment list. -/
def specResolve (m : GpgIdMap) (d : List (List Char)) : Except Unit (List (List Char)) :=
  specResolveAux m d.reverse

/-! ### `cmd_init` argument parsing — src/commands/init.rs lines 55-81 -/

/-- src/commands/init.rs line 59: `path.splitn(2, '/')` — the part before
the first slash, and (when a slash exists) everything after it. -/
def splitGo : List Char → List Char × Option (List Char)
  | [] => ([], none)
  | c :: cs =>
      if c = '/' then ([], some cs)
      else
        ((splitGo cs).1.cons c, (splitGo cs).2)

/-- src/commands/init.rs line 60: the GPG id part of the argument. -/
def gpgIdInputOf (s : List Char) : List Char := (splitGo s).1

/-- src/commands/init.rs line 61: the subfolder part (empty when absent). -/
def subfolderOf (s : List Char) : List Char := ((splitGo s).2).getD []

inductive InitMode where
  | deinitMode
  | initMode
deriving DecidableEq

/-- src/commands/init.rs line 74: deinitialization mode exactly when the
trimmed GPG id part is empty. -/
def cmd_init_mode (s : List Char) : InitMode :=
  if (rustTrim (gpgIdInputOf s)).isEmpty then InitMode.deinitMode else InitMode.initMode

/-! ### Store-level model of `cmd_add` and `cmd_show`

The store is the map from entry name to the ciphertext of
`<PREFIX>/<name>.gpg` (when that file exists), together with the existence
of the store root and the content of the root `.gpg-id`.  The encryption
backend is a pair of pure functions: `enc recipient plaintext` is the
ciphertext gpg writes on success, and `decRun ciphertext` is the pair
(status success?, stdout) of `gpg -d`. -/

structure Crypto where
  enc : List Char → List Char → List Char
  decRun : List Char → Bool × List Char

structure Store where
  rootExists : Bool
  gpgIdContent : Option (List Char)
  entries : List Char → Option (List Char)

/-- Interactive inputs and subprocess outcomes `cmd_add` consumes, in the
order the source reads them (src/commands/add.rs lines 84-245). -/
structure AddEnv where
  keyPresent : Bool
  genAnswer : List Char
  genOk : Bool
  recheckNonempty : Bool
  overwriteAnswer : List Char
  multilineInput : List Char
  echoLine : List Char
  hidden1 : List Char
  hidden2 : List Char
  encryptOk : Bool

inductive AddExit where
  | errExit
  | abortExit
  | okExit
deriving DecidableEq

structure AddOutcome where
  exit : AddExit
  promptedOverwrite : Bool
  store : Store

/-- src/commands/add.rs lines 99 and 147: `answer.trim().to_lowercase().starts_with('y')`. -/
def answerYes (ans : List Char) : Bool :=
  match rustTrim ans with
  | [] => false
  | c :: _ => c.toLower == 'y'

/-- src/commands/add.rs lines 161-207: how the plaintext to store is chosen.
A password argument is used verbatim; multiline input is read to EOF and
trimmed; hidden (no-echo) input is used untrimmed but must match its
confirmation; echoed single-line input is trimmed.  `none` models the
process exiting on a confirmation mismatch. -/
def determinePassword (maybePassword : Option (List Char)) (multiline echo : Bool)
    (env : AddEnv) : Option (List Char) :=
  match maybePassword with
  | some p => some p
  | none =>
      if multiline then some (rustTrim env.multilineInput)
      else if !echo then
        if env.hidden1 = env.hidden2 then some env.hidden1 else none
      else some (rustTrim env.echoLine)

/-- src/commands/add.rs lines 52-247 (`cmd_add`), store-level: checks the
store root, reads the root `.gpg-id` (whole content trimmed = recipient),
checks for a usable key (interactively offering generation), and — when the
entry exists and `force` is unset — interactively asks before overwriting,
aborting with exit 0 on a non-`y` answer.  On success gpg writes
`enc recipient password` to the entry. -/
def cmd_add (C : Crypto) (env : AddEnv) (st : Store) (name : List Char)
    (maybePassword : Option (List Char)) (multiline echo force : Bool) : AddOutcome :=
  if !st.rootExists then AddOutcome.mk AddExit.errExit false st
  else
    match st.gpgIdContent with
    | none => AddOutcome.mk AddExit.errExit false st
    | some content =>
        let recipient := rustTrim content
        let keyOk : Bool :=
          if env.keyPresent then true
          else if answerYes env.genAnswer then env.genOk && env.recheckNonempty
          else false
        if !keyOk then AddOutcome.mk AddExit.errExit false st
        else
          let entryExists := (st.entries name).isSome
          let prompted := !force && entryExists
          if prompted && !(answerYes env.overwriteAnswer) then
            AddOutcome.mk AddExit.abortExit prompted st
          else
            match determinePassword maybePassword multiline echo env with
            | none => AddOutcome.mk AddExit.errExit prompted st
            | some pw =>
                if env.encryptOk then
                  AddOutcome.mk AddExit.okExit prompted
                    (Store.mk st.rootExists st.gpgIdContent
                      (fun n => if n = name then some (C.enc recipient pw) else st.entries n))
                else AddOutcome.mk AddExit.errExit prompted st

inductive ShowResult where
  | panicked
  | printedSecret : List Char → ShowResult
  | printedTree : ShowResult
  | errNoStore : ShowResult
deriving DecidableEq

/-- src/commands/show.rs lines 39-67 (`cmd_show`): panics on a sneaky name;
for an existing entry runs `gpg -d` and prints its stdout without checking
the exit status; for a missing entry prints the store listing when the
store root exists (the printed header and tree lines are elided here) and
exits with an error only when the root is missing. -/
def cmd_show (C : Crypto) (st : Store) (name : List Char) : ShowResult :=
  if check_sneaky_path name then ShowResult.panicked
  else
    match st.entries name with
    | some c => ShowResult.printedSecret (C.decRun c).2
    | none => if st.rootExists then ShowResult.printedTree else ShowResult.errNoStore

/-! ### ReencryptionEngine — `reencrypt_path`, src/integrations/gpg.rs lines 115-249

A directory tree of ciphertext files.  `reencrypt_dir` walks the entries of
a directory in order, recursing into subdirectories in place (depth-first)
and converting every file whose extension is `gpg`, returning on the first
failure with the partially converted tree. -/

mutual
inductive FsTree where
  | file : List Char → List Char → FsTree
  | dir : List Char → FsList → FsTree
inductive FsList where
  | fnil : FsList
  | fcons : FsTree → FsList → FsList
end

inductive Cause where
  | decryptFailed : List Char → Cause
  | encryptFailed : Cause
deriving DecidableEq

/-- The error `reencrypt_dir` stops with: the failing entry's path and the
cause (the source formats both into its error string). -/
structure ReencErr where
  path : List (List Char)
  cause : Cause
deriving DecidableEq

/-- The external gpg behaviour the re-encryption loop invokes per file:
`dec` is `gpg -d` (stdout on success, stderr text on failure); `encOk`
tells whether re-encryption to recipient `r` of plaintext `m` exits
successfully, in which case `enc r m` is the ciphertext written; on
failure `encResidue r m` is whatever the failed child left in the file. -/
structure Backend where
  dec : List Char → Except (List Char) (List Char)
  encOk : List Char → List Char → Bool
  enc : List Char → List Char → List Char
  encResidue : List Char → List Char → List Char

/-- Rust `Path::extension() == Some("gpg")`: the name ends in `.gpg` with a
nonempty stem before the dot. -/
def isGpgFile (name : List Char) : Bool :=
  hasSuffixSeq ((".gpg").toList) name && decide (4 < name.length)

/-- src/integrations/gpg.rs lines 150-240: processing of one `.gpg` file.
Returns the content the file holds afterwards and the error, if any.  A
decryption failure leaves the file at its old ciphertext. -/
def stepFile (B : Backend) (r : List Char) (p : List (List Char)) (c : List Char) :
    List Char × Option ReencErr :=
  match B.dec c with
  | Except.error e => (c, some (ReencErr.mk p (Cause.decryptFailed e)))
  | Except.ok m =>
      if B.encOk r m then (B.enc r m, none)
      else (B.encResidue r m, some (ReencErr.mk p Cause.encryptFailed))

mutual
/-- src/integrations/gpg.rs lines 132-246 (`reencrypt_dir`), on one entry:
recurse into a directory, convert a `.gpg` file, skip anything else. -/
def reencTree (B : Backend) (r : List Char) (pfx : List (List Char)) :
    FsTree → FsTree × Option ReencErr
  | FsTree.file name c =>
      if isGpgFile name then
        match stepFile B r (pfx ++ [name]) c with
        | (c', e) => (FsTree.file name c', e)
      else (FsTree.file name c, none)
  | FsTree.dir name ts =>
      match reencList B r (pfx ++ [name]) ts with
      | (ts', e) => (FsTree.dir name ts', e)
/-- The `for entry in entries` loop of `reencrypt_dir`: process entries in
order, returning at the first error with the remaining entries untouched. -/
def reencList (B : Backend) (r : List Char) (pfx : List (List Char)) :
    FsList → FsList × Option ReencErr
  | FsList.fnil => (FsList.fnil, none)
  | FsList.fcons t ts =>
      match reencTree B r pfx t with
      | (t', some err) => (FsList.fcons t' ts, some err)
      | (t', none) =>
          match reencList B r pfx ts with
          | (ts', e') => (FsList.fcons t' ts', e')
end

/-- The `.gpg-id` file among a directory's entries. -/
def findGpgId : FsList → Option (List Char)
  | FsList.fnil => none
  | FsList.fcons (FsTree.file name c) ts =>
      if name = (".gpg-id").toList then some c else findGpgId ts
  | FsList.fcons (FsTree.dir _ _) ts => findGpgId ts

inductive ReencTopErr where
  | notDir
  | readGpgIdFailed
  | emptyRecipient
  | step : ReencErr → ReencTopErr

/-- src/integrations/gpg.rs lines 115-249 (`reencrypt_path`): require a
directory, read its own `.gpg-id` (trimmed whole content as the single
recipient, error when missing or empty), then run the recursive walk. -/
def reencrypt_path (B : Backend) (root : FsTree) : FsTree × Option ReencTopErr :=
  match root with
  | FsTree.file name c => (FsTree.file name c, some ReencTopErr.notDir)
  | FsTree.dir name ts =>
      match findGpgId ts with
      | none => (FsTree.dir name ts, some ReencTopErr.readGpgIdFailed)
      | some content =>
          if (rustTrim content).isEmpty then
            (FsTree.dir name ts, some ReencTopErr.emptyRecipient)
          else
            match reencList B (rustTrim content) [name] ts with
            | (ts', none) => (FsTree.dir name ts', none)
            | (ts', some e) => (FsTree.dir name ts', some (ReencTopErr.step e))

mutual
/-- The `.gpg` files of a tree in the traversal's depth-first order, with
their paths. -/
def gpgFilesT (pfx : List (List Char)) : FsTree → List (List (List Char) × List Char)
  | FsTree.file name c => if isGpgFile name then [(pfx ++ [name], c)] else []
  | FsTree.dir name ts => gpgFilesL (pfx ++ [name]) ts
def gpgFilesL (pfx : List (List Char)) : FsList → List (List (List Char) × List Char)
  | FsList.fnil => []
  | FsList.fcons t ts => gpgFilesT pfx t ++ gpgFilesL pfx ts
end

/-- The re-encryption loop flattened onto the depth-first file list:
process files in order, stopping at the first failure with the remaining
files untouched. -/
def processFiles (B : Backend) (r : List Char) :
    List (List (List Char) × List Char) → List (List (List Char) × List Char) × Option ReencErr
  | [] => ([], none)
  | pc :: rest =>
      match stepFile B r pc.1 pc.2 with
      | (c', some err) => ((pc.1, c') :: rest, some err)
      | (c', none) =>
          ((pc.1, c') :: (processFiles B r rest).1, (processFiles B r rest).2)

/-! ### Concrete instances used by counterexamples and witnesses -/

/-- A store with a recipient file at `a` and at `a/b/c` but none at `a/b`
(the scenario of spec §8, resolver scoping). -/
def fsScoped : GpgIdMap :=
  [([("a").toList], ("alice\n").toList),
   ([("a").toList, ("b").toList, ("c").toList], ("carol\n").toList)]

/-- A gpg backend for which the ciphertext `c2` fails to decrypt and
everything else succeeds; encryption prepends the recipient. -/
def backend3 : Backend :=
  Backend.mk
    (fun c =>
      if c = ("c2").toList then Except.error (("bad").toList)
      else if c = ("c1").toList then Except.ok (("m1").toList)
      else Except.ok (("m3").toList))
    (fun _ _ => true)
    (fun r m => r ++ m)
    (fun _ _ => [])

/-- Three entries in traversal order; the second one holds the ciphertext
that fails to decrypt. -/
def tree3 : FsTree :=
  FsTree.dir (("s").toList)
    (FsList.fcons (FsTree.file (("one.gpg").toList) (("c1").toList))
      (FsList.fcons (FsTree.file (("two.gpg").toList) (("c2").toList))
        (FsList.fcons (FsTree.file (("three.gpg").toList) (("c3").toList))
          FsList.fnil)))

/-- Backends for the store-level witnesses: identity encryption,
recipient-prepending encryption, and a decryption that reports failure. -/
def cryptoId : Crypto := Crypto.mk (fun _ m => m) (fun c => (true, c))

def cryptoConcat : Crypto := Crypto.mk (fun r m => r ++ m) (fun c => (true, c))

def cryptoFailDec : Crypto := Crypto.mk (fun r m => r ++ m) (fun _ => (false, []))

/-- Interactive environments answering `y` resp. `n` to the overwrite
prompt, with a key present and encryption succeeding. -/
def envYes : AddEnv := AddEnv.mk true [] true true (("y").toList) [] [] [] [] true

def envNo : AddEnv := AddEnv.mk true [] true true (("n").toList) [] [] [] [] true

/-- An initialized store with no entries. -/
def stEmpty : Store := Store.mk true (some (("alice").toList)) (fun _ => none)

/-- An initialized store holding one entry `x`. -/
def stWithX : Store :=
  Store.mk true (some (("alice").toList))
    (fun n => if n = ("x").toList then some (("old").toList) else none)

/-! ### Helper lemmas on the string primitives -/

theorem hasPrefixSeq_iff : ∀ p s : List Char, hasPrefixSeq p s = true ↔ ∃ t, s = p ++ t := by
  intro p
  induction p with
  | nil => intro s; simp [hasPrefixSeq]
  | cons a ps ih =>
      intro s
      cases s with
      | nil =>
          simp only [hasPrefixSeq]
          constructor
          · intro h; exact absurd h (by simp)
          · rintro ⟨t, ht⟩; exact absurd ht (by simp)
      | cons c cs =>
          simp only [hasPrefixSeq, Bool.and_eq_true, beq_iff_eq, ih]
          constructor
          · rintro ⟨rfl, t, rfl⟩; exact ⟨t, rfl⟩
          · rintro ⟨t, ht⟩
            injection ht with h1 h2
            exact ⟨h1.symm, t, h2⟩

theorem hasSuffixSeq_iff (p s : List Char) : hasSuffixSeq p s = true ↔ ∃ a, s = a ++ p := by
  unfold hasSuffixSeq
  rw [hasPrefixSeq_iff]
  constructor
  · rintro ⟨t, ht⟩
    refine ⟨t.reverse, ?_⟩
    have h2 := congrArg List.reverse ht
    simpa using h2
  · rintro ⟨a, rfl⟩
    exact ⟨a.reverse, by simp⟩

theorem hasInfixSeq_iff (p : List Char) : ∀ s, hasInfixSeq p s = true ↔ ∃ a b, s = a ++ p ++ b := by
  intro s
  induction s with
  | nil =>
      simp only [hasInfixSeq, hasPrefixSeq_iff]
      constructor
      · rintro ⟨t, ht⟩
        have hp : p = [] := by
          cases p with
          | nil => rfl
          | cons x xs => exact absurd ht (by simp)
        exact ⟨[], [], by simp [hp]⟩
      · rintro ⟨a, b, hab⟩
        have : (a ++ p) ++ b = [] := hab.symm
        rcases List.append_eq_nil.mp this with ⟨h1, h2⟩
        rcases List.append_eq_nil.mp h1 with ⟨h3, h4⟩
        exact ⟨[], by simp [h4]⟩
  | cons c cs ih =>
      simp only [hasInfixSeq, Bool.or_eq_true, hasPrefixSeq_iff, ih]
      constructor
      · rintro (⟨t, ht⟩ | ⟨a, b, hab⟩)
        · exact ⟨[], t, by simpa using ht⟩
        · exact ⟨c :: a, b, by simp [hab]⟩
      · rintro ⟨a, b, hab⟩
        cases a with
        | nil => exact Or.inl ⟨b, by simpa using hab⟩
        | cons a0 as =>
            right
            have hab' : c :: cs = a0 :: (as ++ p ++ b) := by simpa using hab
            injection hab' with h1 h2
            exact ⟨as, b, h2⟩

theorem dropWhile_head_false (p : Char → Bool) :
    ∀ (l : List Char) (c : Char) (t : List Char), l.dropWhile p = c :: t → p c = false := by
  intro l
  induction l with
  | nil => intro c t h; simp [List.dropWhile] at h
  | cons a l ih =>
      intro c t h
      rw [List.dropWhile_cons] at h
      by_cases hp : p a = true
      · rw [if_pos hp] at h
        exact ih c t h
      · rw [if_neg hp] at h
        injection h with h1 h2
        subst h1
        exact Bool.not_eq_true _ ▸ (by simpa using hp)

theorem dropWhile_eq_trim_append (s : List Char) :
    ∃ b, s.dropWhile isRustWS = rustTrim s ++ b ∧ b.all isRustWS = true := by
  refine ⟨((s.dropWhile isRustWS).reverse.takeWhile isRustWS).reverse, ?_, ?_⟩
  · have h2 := List.takeWhile_append_dropWhile isRustWS (s.dropWhile isRustWS).reverse
    have h3 := congrArg List.reverse h2
    simp only [List.reverse_append, List.reverse_reverse] at h3
    rw [rustTrim]
    exact h3.symm
  · rw [List.all_eq_true]
    intro x hx
    rw [List.mem_reverse] at hx
    exact List.mem_takeWhile_imp hx

theorem rustTrim_decomp (s : List Char) :
    ∃ a b, s = a ++ rustTrim s ++ b ∧ a.all isRustWS = true ∧ b.all isRustWS = true := by
  obtain ⟨b, hb, hball⟩ := dropWhile_eq_trim_append s
  refine ⟨s.takeWhile isRustWS, b, ?_, ?_, hball⟩
  · conv_lhs => rw [← List.takeWhile_append_dropWhile isRustWS s]
    rw [hb, List.append_assoc]
  · rw [List.all_eq_true]
    intro x hx
    exact List.mem_takeWhile_imp hx

theorem rustTrim_head_not_ws (s : List Char) :
    ((rustTrim s).head?.all (fun c => !isRustWS c)) = true := by
  cases h : rustTrim s with
  | nil => simp
  | cons c t =>
      obtain ⟨b, hb, _⟩ := dropWhile_eq_trim_append s
      rw [h] at hb
      have hc := dropWhile_head_false isRustWS s c (t ++ b) (by simpa using hb)
      simp [h, hc]

theorem rustTrim_last_not_ws (s : List Char) :
    (((rustTrim s).reverse.head?).all (fun c => !isRustWS c)) = true := by
  have hrev : (rustTrim s).reverse = (s.dropWhile isRustWS).reverse.dropWhile isRustWS := by
    simp [rustTrim]
  rw [hrev]
  cases h : (s.dropWhile isRustWS).reverse.dropWhile isRustWS with
  | nil => simp
  | cons c t =>
      have hc := dropWhile_head_false isRustWS (s.dropWhile isRustWS).reverse c t h
      simp [hc]

/-! ### Helper lemmas on the re-encryption walk -/

theorem processFiles_append_of_error (B : Backend) (r : List Char) :
    ∀ (A Bs : List (List (List Char) × List Char)) (err : ReencErr),
      (processFiles B r A).2 = some err →
      processFiles B r (A ++ Bs) = ((processFiles B r A).1 ++ Bs, some err) := by
  intro A
  induction A with
  | nil => intro Bs err h; simp [processFiles] at h
  | cons pc rest ih =>
      intro Bs err h
      cases hs : stepFile B r pc.1 pc.2 with
      | mk c' e =>
          cases e with
          | some e0 =>
              have h2 : e0 = err := by
                simp [processFiles, hs] at h
                exact h
              subst h2
              simp [processFiles, hs]
          | none =>
              have h2 : (processFiles B r rest).2 = some err := by
                simpa [processFiles, hs] using h
              simp [processFiles, hs, ih Bs err h2]

theorem processFiles_append_of_none (B : Backend) (r : List Char) :
    ∀ (A Bs : List (List (List Char) × List Char)),
      (processFiles B r A).2 = none →
      processFiles B r (A ++ Bs)
        = ((processFiles B r A).1 ++ (processFiles B r Bs).1, (processFiles B r Bs).2) := by
  intro A
  induction A with
  | nil => intro Bs _; simp [processFiles]
  | cons pc rest ih =>
      intro Bs h
      cases hs : stepFile B r pc.1 pc.2 with
      | mk c' e =>
          cases e with
          | some e0 => simp [processFiles, hs] at h
          | none =>
              have h2 : (processFiles B r rest).2 = none := by
                simpa [processFiles, hs] using h
              simp [processFiles, hs, ih Bs h2]

/-- The recursive directory walk agrees, on the depth-first file list, with
the flat left-to-right processing `processFiles`: same resulting file
contents and same error. -/
theorem reenc_bridge_tree (B : Backend) (r : List Char) :
    ∀ (t : FsTree) (pfx : List (List Char)),
      gpgFilesT pfx (reencTree B r pfx t).1 = (processFiles B r (gpgFilesT pfx t)).1
      ∧ (reencTree B r pfx t).2 = (processFiles B r (gpgFilesT pfx t)).2 := by
  intro t
  refine @FsTree.rec
    (fun t => ∀ pfx : List (List Char),
      gpgFilesT pfx (reencTree B r pfx t).1 = (processFiles B r (gpgFilesT pfx t)).1
      ∧ (reencTree B r pfx t).2 = (processFiles B r (gpgFilesT pfx t)).2)
    (fun ts => ∀ pfx : List (List Char),
      gpgFilesL pfx (reencList B r pfx ts).1 = (processFiles B r (gpgFilesL pfx ts)).1
      ∧ (reencList B r pfx ts).2 = (processFiles B r (gpgFilesL pfx ts)).2)
    ?_ ?_ ?_ ?_ t
  · intro name c pfx
    by_cases hg : isGpgFile name = true
    · cases hs : stepFile B r (pfx ++ [name]) c with
      | mk c' e =>
          cases e <;> simp [reencTree, gpgFilesT, processFiles, hg, hs]
    · simp [reencTree, gpgFilesT, processFiles, hg]
  · intro name ts ih pfx
    have h := ih (pfx ++ [name])
    cases hL : reencList B r (pfx ++ [name]) ts with
    | mk ts' e =>
        rw [hL] at h
        simpa [reencTree, hL, gpgFilesT] using h
  · intro pfx
    simp [reencList, gpgFilesL, processFiles]
  · intro t ts iht ihts pfx
    have ht := iht pfx
    have hts := ihts pfx
    cases hT : reencTree B r pfx t with
    | mk t' e =>
        rw [hT] at ht
        cases e with
        | some err =>
            have herr : (processFiles B r (gpgFilesT pfx t)).2 = some err := ht.2.symm
            have happ := processFiles_append_of_error B r (gpgFilesT pfx t)
              (gpgFilesL pfx ts) err herr
            simp only [reencList, hT, gpgFilesL, happ]
            exact ⟨by rw [ht.1], trivial⟩
        | none =>
            have hnone : (processFiles B r (gpgFilesT pfx t)).2 = none := ht.2.symm
            have happ := processFiles_append_of_none B r (gpgFilesT pfx t)
              (gpgFilesL pfx ts) hnone
            cases hL : reencList B r pfx ts with
            | mk ts' e' =>
                rw [hL] at hts
                simp only [reencList, hT, hL, gpgFilesL, happ]
                exact ⟨by rw [ht.1, hts.1], hts.2⟩

/-- Flat-list characterization of the first decryption failure: every file
before it converts, the failing file keeps its old ciphertext, every file
after it is untouched, and the returned error carries the failing path and
the decryption cause. -/
theorem processFiles_firstFail (B : Backend) (r : List Char) :
    ∀ (pre : List (List (List Char) × List Char)) (p : List (List Char)) (c e : List Char)
      (post : List (List (List Char) × List Char)),
      pre.all (fun qd => ((stepFile B r qd.1 qd.2).2).isNone) = true →
      B.dec c = Except.error e →
      processFiles B r (pre ++ (p, c) :: post)
        = (pre.map (fun qd => (qd.1, (stepFile B r qd.1 qd.2).1)) ++ (p, c) :: post,
           some (ReencErr.mk p (Cause.decryptFailed e))) := by
  intro pre
  induction pre with
  | nil =>
      intro p c e post _ hfail
      simp [processFiles, stepFile, hfail]
  | cons qd rest ih =>
      intro p c e post hall hfail
      have hqd : ((stepFile B r qd.1 qd.2).2).isNone = true := by
        have := (List.all_eq_true.mp hall) qd (by simp)
        simpa using this
      have hrest : rest.all (fun qd => ((stepFile B r qd.1 qd.2).2).isNone) = true := by
        rw [List.all_eq_true]
        intro x hx
        exact (List.all_eq_true.mp hall) x (by simp [hx])
      cases hs : stepFile B r qd.1 qd.2 with
      | mk c' e0 =>
          cases e0 with
          | some e1 => rw [hs] at hqd; simp at hqd
          | none =>
              simp [processFiles, hs, ih p c e post hrest hfail]

/-! ### Claim theorems -/

/-- Claim C5: `check_sneaky_paths` fails exactly when the raw input equals
`..`, starts with `../`, contains `/../`, or ends with `/..`; the inputs
`..`, `../x` and `x/../y` are all rejected with `Traversal`; and every
string matching none of the four shapes is accepted unchanged, with no
normalization. -/
theorem claim5_traversal_exact :
    (∀ s : List Char, check_sneaky_path s = true ↔
        (s = ("..").toList ∨ (∃ t, s = ("../").toList ++ t) ∨
         (∃ a b, s = a ++ ("/../").toList ++ b) ∨ (∃ a, s = a ++ ("/..").toList)))
    ∧ validatePath (("..").toList) = Except.error PathError.Traversal
    ∧ validatePath (("../x").toList) = Except.error PathError.Traversal
    ∧ validatePath (("x/../y").toList) = Except.error PathError.Traversal
    ∧ (∀ s : List Char, check_sneaky_path s = false → validatePath s = Except.ok s) := by
  refine ⟨?_, rfl, rfl, rfl, ?_⟩
  · intro s
    simp only [check_sneaky_path, Bool.or_eq_true, decide_eq_true_eq,
      hasSuffixSeq_iff, hasPrefixSeq_iff, hasInfixSeq_iff]
    constructor
    · rintro (((h | h) | h) | h)
      · exact Or.inr (Or.inr (Or.inr h))
      · exact Or.inr (Or.inl h)
      · exact Or.inr (Or.inr (Or.inl h))
      · exact Or.inl h
    · rintro (h | h | h | h)
      · exact Or.inr h
      · exact Or.inl (Or.inl (Or.inr h))
      · exact Or.inl (Or.inr h)
      · exact Or.inl (Or.inl (Or.inl h))
  · intro s h
    simp [validatePath, h]

/-- Witness for claim C5: the plain name `a/b` is accepted unchanged. -/
theorem claim5_witness :
    validatePath (("a/b").toList) = Except.ok (("a/b").toList) :=
  claim5_traversal_exact.2.2.2.2 (("a/b").toList) (by decide)

/-- Claim C1 is false as stated: at a concrete prefix and entry name, the
trace of `cmd_add` contains no rename onto the target (nor any rename at
all) — the encryption child process writes straight to the target path —
and likewise for the per-file re-encryption step. -/
theorem claim1_counterexample :
    tempThenRename (cmd_add_ops (("/ps").toList) (("site").toList))
        (passfilePath (("/ps").toList) (("site").toList)) = false
    ∧ tempThenRename (reencrypt_file_ops (("/ps/site.gpg").toList))
        (("/ps/site.gpg").toList) = false
    ∧ (cmd_add_ops (("/ps").toList) (("site").toList)).any
        (writesTo (passfilePath (("/ps").toList) (("site").toList))) = true := by
  decide

/-- Claim C1 amended: every entry write of `cmd_add` and of the
re-encryption step directs gpg's `--output` at the entry's final path
itself, and neither trace contains any rename; there is no temp-file-then-
rename discipline, so the write happens in place. -/
theorem claim1_direct_write (pfx name p : List Char) :
    (cmd_add_ops pfx name).any (writesTo (passfilePath pfx name)) = true
    ∧ (cmd_add_ops pfx name).any isRenameOp = false
    ∧ (reencrypt_file_ops p).any (writesTo p) = true
    ∧ (reencrypt_file_ops p).any isRenameOp = false := by
  refine ⟨?_, ?_, ?_, ?_⟩ <;>
    simp [cmd_add_ops, reencrypt_file_ops, writesTo, isRenameOp]

/-- Claim C6 is false as stated: at the concrete name `../x`, `cmd_add`
constructs the entry's file path without any prior validation — its trace
contains no `sneakyCheck` at all, yet builds the path. -/
theorem claim6_counterexample :
    validatesBeforePath (("../x").toList)
        (cmd_add_ops (("/ps").toList) (("../x").toList)) = false
    ∧ (cmd_add_ops (("/ps").toList) (("../x").toList)).any
        (fun op => match op with | FsOp.sneakyCheck _ => true | _ => false) = false
    ∧ FsOp.mkPath (passfilePath (("/ps").toList) (("../x").toList))
        ∈ cmd_add_ops (("/ps").toList) (("../x").toList) := by
  decide

/-- Claim C6 amended: `cmd_show` validates its name before constructing the
entry path, but `cmd_add` never validates — its trace constructs the path
from the raw name and contains no validation call whatsoever. -/
theorem claim6_validation (pfx name : List Char) :
    validatesBeforePath name (cmd_show_ops pfx name) = true
    ∧ validatesBeforePath name (cmd_add_ops pfx name) = false
    ∧ (cmd_add_ops pfx name).any
        (fun op => match op with | FsOp.sneakyCheck _ => true | _ => false) = false := by
  refine ⟨?_, ?_, ?_⟩
  · simp [cmd_show_ops, validatesBeforePath]
  · simp [cmd_add_ops, validatesBeforePath]
  · simp [cmd_add_ops]

/-- Claim C9: `cmd_init` splits its argument at the first `/` — the id part
is the longest slash-free prefix and the subfolder is everything after that
first slash — so an id containing `/` is truncated there, and the call is in
deinitialization mode exactly when the trimmed id part is empty, e.g. for
the input `/sub`. -/
theorem claim9_init_parsing :
    (∀ s : List Char,
        gpgIdInputOf s = s.takeWhile (fun c => !(c == '/'))
        ∧ subfolderOf s = (s.dropWhile (fun c => !(c == '/'))).drop 1)
    ∧ (∀ s : List Char, cmd_init_mode s = InitMode.deinitMode
        ↔ (rustTrim (s.takeWhile (fun c => !(c == '/')))).isEmpty = true)
    ∧ cmd_init_mode (("/sub").toList) = InitMode.deinitMode
    ∧ gpgIdInputOf (("alice/key/sub").toList) = ("alice").toList
    ∧ subfolderOf (("alice/key/sub").toList) = ("key/sub").toList := by
  have hsplit : ∀ s : List Char,
      gpgIdInputOf s = s.takeWhile (fun c => !(c == '/'))
      ∧ subfolderOf s = (s.dropWhile (fun c => !(c == '/'))).drop 1 := by
    intro s
    induction s with
    | nil => exact ⟨rfl, rfl⟩
    | cons c cs ih =>
        by_cases hc : c = '/'
        · subst hc
          refine ⟨?_, ?_⟩ <;>
            simp [gpgIdInputOf, subfolderOf, splitGo, List.takeWhile_cons,
              List.dropWhile_cons]
        · have hcb : (c == '/') = false := by simpa using hc
          refine ⟨?_, ?_⟩
          · simp [gpgIdInputOf, splitGo, List.takeWhile_cons, hc, hcb]
            exact ih.1
          · simp [subfolderOf, splitGo, List.dropWhile_cons, hc, hcb]
            simpa using ih.2
  refine ⟨hsplit, ?_, by decide, by decide, by decide⟩
  intro s
  rw [cmd_init_mode, (hsplit s).1]
  by_cases hE : (rustTrim (s.takeWhile (fun c => !(c == '/')))).isEmpty = true
  · simp [hE]
  · simp [hE]

/-- Witness for claim C9: the input `/sub` has a blank id part and puts the
command into deinitialization mode. -/
theorem claim9_witness : cmd_init_mode (("/sub").toList) = InitMode.deinitMode :=
  (claim9_init_parsing.2.1 (("/sub").toList)).mpr (by decide)

/-- Claim C2 is false as stated: with recipient files at `a` and `a/b/c`
and none at `a/b`, the code's resolution for directory `a/b` fails rather
than walking up to `a` — although the resolver described by the spec finds
`a`'s recipients there — while `a/b/c` does use its own file and `cmd_add`
consults only the store root (which here has no recipient file at all). -/
theorem claim2_counterexample :
    reencReadRecipient fsScoped [("a").toList, ("b").toList] = Except.error ()
    ∧ specResolve fsScoped [("a").toList, ("b").toList] = Except.ok [("alice").toList]
    ∧ reencReadRecipient fsScoped [("a").toList, ("b").toList, ("c").toList]
        = Except.ok (("carol").toList)
    ∧ addReadRecipient fsScoped = Except.error () :=
  ⟨rfl, rfl, rfl, rfl⟩

/-- Claim C2 amended: recipient resolution consults exactly one directory
and never walks upward — `reencrypt_path`'s resolution depends only on the
target directory's own `.gpg-id` entry, and `cmd_add`'s depends only on the
store root's. -/
theorem claim2_no_upward_walk :
    (∀ (m m' : GpgIdMap) (d : List (List Char)),
        assocLookup d m = assocLookup d m' →
        reencReadRecipient m d = reencReadRecipient m' d)
    ∧ (∀ m m' : GpgIdMap,
        assocLookup [] m = assocLookup [] m' →
        addReadRecipient m = addReadRecipient m') := by
  constructor
  · intro m m' d h
    simp only [reencReadRecipient, h]
  · intro m m' h
    simp only [addReadRecipient, h]

/-- Witness for claim C2's amended theorem: two stores that agree at the
target directory (and nowhere else) resolve identically there. -/
theorem claim2_witness :
    reencReadRecipient [] [("q").toList]
      = reencReadRecipient [([("z").toList], ("x").toList)] [("q").toList] :=
  claim2_no_upward_walk.1 [] [([("z").toList], ("x").toList)] [("q").toList] rfl

/-- Claim C3: the re-encryption walk visits the subtree's `.gpg` files in
depth-first order; when every file before some file converts and that file
fails to decrypt, the walk stops with an error naming exactly that file's
path and the decryption cause, the earlier files keep their new ciphertext,
the failing file keeps its old ciphertext, and the files after it in the
traversal are left untouched. -/
theorem claim3_first_failure (B : Backend) (r : List Char) (pfx : List (List Char))
    (t : FsTree) (pre post : List (List (List Char) × List Char))
    (p : List (List Char)) (c e : List Char)
    (hsplit : gpgFilesT pfx t = pre ++ (p, c) :: post)
    (hpre : pre.all (fun qd => ((stepFile B r qd.1 qd.2).2).isNone) = true)
    (hfail : B.dec c = Except.error e) :
    (reencTree B r pfx t).2 = some (ReencErr.mk p (Cause.decryptFailed e))
    ∧ gpgFilesT pfx (reencTree B r pfx t).1
        = pre.map (fun qd => (qd.1, (stepFile B r qd.1 qd.2).1)) ++ (p, c) :: post := by
  have hb := reenc_bridge_tree B r t pfx
  have hp := processFiles_firstFail B r pre p c e post hpre hfail
  rw [hsplit, hp] at hb
  exact ⟨hb.2, by rw [hb.1]⟩

/-- Witness for claim C3: the spec's three-entry scenario — entry 1
converts, entry 2 fails to decrypt, the error names entry 2 and its cause,
and entry 3 keeps its old ciphertext. -/
theorem claim3_witness :
    (reencTree backend3 (("k").toList) [] tree3).2
      = some (ReencErr.mk [("s").toList, ("two.gpg").toList]
          (Cause.decryptFailed (("bad").toList)))
    ∧ gpgFilesT [] (reencTree backend3 (("k").toList) [] tree3).1
      = [([("s").toList, ("one.gpg").toList], ("km1").toList),
         ([("s").toList, ("two.gpg").toList], ("c2").toList),
         ([("s").toList, ("three.gpg").toList], ("c3").toList)] := by
  have h := claim3_first_failure backend3 (("k").toList) [] tree3
    [([("s").toList, ("one.gpg").toList], ("c1").toList)]
    [([("s").toList, ("three.gpg").toList], ("c3").toList)]
    [("s").toList, ("two.gpg").toList] (("c2").toList) (("bad").toList)
    (by rfl) (by decide) (by rfl)
  refine ⟨h.1, ?_⟩
  rw [h.2]
  rfl

/-- Claim C4: reading an entry right after adding it with overwrite on
returns the plaintext unchanged, assuming the backend's decryption inverts
its encryption (and a usable store, recipient file, key and a non-sneaky
name). -/
theorem claim4_roundtrip (C : Crypto) (env : AddEnv) (st : Store) (name g m : List Char)
    (multiline echo : Bool)
    (hroot : st.rootExists = true)
    (hgid : st.gpgIdContent = some g)
    (hkey : env.keyPresent = true)
    (henc : env.encryptOk = true)
    (hname : check_sneaky_path name = false)
    (hinv : C.decRun (C.enc (rustTrim g) m) = (true, m)) :
    cmd_show C ((cmd_add C env st name (some m) multiline echo true).store) name
      = ShowResult.printedSecret m := by
  simp [cmd_add, cmd_show, determinePassword, hroot, hgid, hkey, henc, hname, hinv]

/-- Witness for claim C4 with the identity backend. -/
theorem claim4_witness :
    cmd_show cryptoId
      ((cmd_add cryptoId envYes stEmpty (("web").toList)
          (some (("s3cret").toList)) false false true).store)
      (("web").toList)
      = ShowResult.printedSecret (("s3cret").toList) :=
  claim4_roundtrip cryptoId envYes stEmpty (("web").toList) (("alice").toList)
    (("s3cret").toList) false false rfl rfl rfl rfl (by decide) rfl

/-- Claim C7 is false as stated: with entry `x` present and overwrite off,
`cmd_add` blocks on the interactive confirmation; on answer `y` it succeeds
and overwrites the existing entry instead of failing with AlreadyExists. -/
theorem claim7_counterexample :
    (cmd_add cryptoConcat envYes stWithX (("x").toList)
        (some (("new").toList)) false false false).promptedOverwrite = true
    ∧ (cmd_add cryptoConcat envYes stWithX (("x").toList)
        (some (("new").toList)) false false false).exit = AddExit.okExit
    ∧ (cmd_add cryptoConcat envYes stWithX (("x").toList)
        (some (("new").toList)) false false false).store.entries (("x").toList)
      = some (("alicenew").toList) :=
  ⟨rfl, rfl, rfl⟩

/-- Claim C7 amended: when the target entry exists and overwrite is off,
`cmd_add` prompts for interactive confirmation; unless the trimmed,
lowercased answer starts with `y` it aborts with exit code 0 — not an
AlreadyExists error — leaving the store unchanged (a `y` answer instead
proceeds to overwrite, as the counterexample shows). -/
theorem claim7_prompting (C : Crypto) (env : AddEnv) (st : Store) (name : List Char)
    (mp : Option (List Char)) (ml echo : Bool) (g : List Char)
    (hroot : st.rootExists = true)
    (hgid : st.gpgIdContent = some g)
    (hkey : env.keyPresent = true)
    (hexists : (st.entries name).isSome = true)
    (hno : answerYes env.overwriteAnswer = false) :
    (cmd_add C env st name mp ml echo false).promptedOverwrite = true
    ∧ (cmd_add C env st name mp ml echo false).exit = AddExit.abortExit
    ∧ (cmd_add C env st name mp ml echo false).store = st := by
  simp [cmd_add, hroot, hgid, hkey, hexists, hno]

/-- Witness for claim C7's amended theorem at a concrete store and an `n`
answer. -/
theorem claim7_witness :
    (cmd_add cryptoConcat envNo stWithX (("x").toList)
        (some (("new").toList)) false false false).promptedOverwrite = true
    ∧ (cmd_add cryptoConcat envNo stWithX (("x").toList)
        (some (("new").toList)) false false false).exit = AddExit.abortExit
    ∧ (cmd_add cryptoConcat envNo stWithX (("x").toList)
        (some (("new").toList)) false false false).store = stWithX :=
  claim7_prompting cryptoConcat envNo stWithX (("x").toList)
    (some (("new").toList)) false false (("alice").toList) rfl rfl rfl rfl (by decide)

/-- Claim C8 evaluated at the failing input: with the store present,
`cmd_show` of the absent entry `nope` prints the store listing and succeeds
instead of failing with NotFound (contradicting the function's own doc
comment); a present entry whose decryption reports failure still has its
(empty) stdout printed as a success; only a missing store root is an
error. -/
theorem claim8_eval :
    cmd_show cryptoId stEmpty (("nope").toList) = ShowResult.printedTree
    ∧ cmd_show cryptoFailDec
        (Store.mk true (some (("alice").toList))
          (fun n => if n = ("have").toList then some (("cipher").toList) else none))
        (("have").toList)
      = ShowResult.printedSecret []
    ∧ cmd_show cryptoId (Store.mk false none (fun _ => none)) (("nope").toList)
      = ShowResult.errNoStore :=
  ⟨rfl, rfl, rfl⟩

/-- Claim C10: a password supplied as an argument is stored verbatim, while
multiline and echoed single-line interactive input are trimmed of leading
and trailing whitespace — so the stored plaintext equals the entered text
exactly up to surrounding whitespace (the trim removes only whitespace and
leaves none at either end). -/
theorem claim10_trimming :
    (∀ (p : List Char) (ml echo : Bool) (env : AddEnv),
        determinePassword (some p) ml echo env = some p)
    ∧ (∀ (echo : Bool) (env : AddEnv),
        determinePassword none true echo env = some (rustTrim env.multilineInput))
    ∧ (∀ env : AddEnv, determinePassword none false true env = some (rustTrim env.echoLine))
    ∧ (∀ s : List Char,
        (∃ a b, s = a ++ rustTrim s ++ b ∧ a.all isRustWS = true ∧ b.all isRustWS = true)
        ∧ ((rustTrim s).head?.all (fun c => !isRustWS c)) = true
        ∧ (((rustTrim s).reverse.head?).all (fun c => !isRustWS c)) = true) := by
  refine ⟨?_, ?_, ?_, ?_⟩
  · intro p ml echo env; rfl
  · intro echo env; rfl
  · intro env; rfl
  · intro s
    exact ⟨rustTrim_decomp s, rustTrim_head_not_ws s, rustTrim_last_not_ws s⟩

end PassRS
